import Mathlib

/-!
Verification of the ePub-Genre-Finder core (`services/epubProcessor.ts`,
given as `src/unnamed/part_002`) against its natural-language specification.

The embedding models strings as `List Char` (`Str`).  JavaScript platform
primitives used by the source are modelled as follows and the modelling
choices are documented at each definition:

* `String.prototype.match(re)` with a `gi`-flagged regex built by
  `escapeRegex` — modelled by a token matcher (`regexCountAux`): after
  `escapeRegex`, every keyword character other than `*` is a literal
  (all regex metacharacters `. + ? ^ $ { } ( ) | [ ] \` are escaped) and
  `*` becomes `\w`; case-insensitivity is ASCII case folding (all
  keywords in the repository are ASCII).
* JS objects used as maps (`Record<string, number>`) — modelled as
  insertion-ordered association lists (string keys here are
  non-integer-like, so JS enumeration order is insertion order).
* `Array.prototype.sort` with comparator `(a, b) => b.k - a.k` — modelled
  as the unique stable descending sort (ES2019 requires sort stability).
* `DOMParser.parseFromString` for `application/xml` — never throws; on
  malformed input it yields an error document containing no `rootfile`
  (resp. no manifest/spine) elements.  The parsed views are abstracted as
  `ContainerView` / `OpfView` inputs.
* `new URL(href, base)` against the fake base `file:///` followed by
  `decodeURIComponent(url.pathname.substring(1).split('#')[0])` —
  modelled by `resolveChapterPath`: fragment/query stripping, RFC-style
  merge and dot-segment removal, then strict percent + UTF-8 decoding
  (`decodeURIComponent` throws `URIError` on malformed input, modelled
  as `none`).  Scheme-less hrefs (the ePub case) are covered.
-/

/-- Strings of the JavaScript source, modelled as lists of characters. -/
abbrev Str := List Char

/-- JS case canonicalization for the regex `i` flag, restricted to ASCII
(the repository's keywords are ASCII): the code point with `A`-`Z`
mapped to `a`-`z`. -/
def lowerCode (c : Char) : Nat :=
  if 65 ≤ c.toNat && c.toNat ≤ 90 then c.toNat + 32 else c.toNat

/-- The regex word-constituent class `\w`, i.e. `[A-Za-z0-9_]`. -/
def isWordChar (c : Char) : Bool :=
  (97 ≤ c.toNat && c.toNat ≤ 122) || (65 ≤ c.toNat && c.toNat ≤ 90) ||
    (48 ≤ c.toNat && c.toNat ≤ 57) || (c.toNat == 95)

/-- Whitespace as recognised by `String.prototype.trim`. -/
def isJsWhitespace (c : Char) : Bool :=
  c.toNat ∈ [32, 9, 10, 13, 11, 12, 0xa0, 0xfeff,
    0x1680, 0x2000, 0x2001, 0x2002, 0x2003, 0x2004, 0x2005, 0x2006,
    0x2007, 0x2008, 0x2009, 0x200a, 0x2028, 0x2029, 0x202f, 0x205f, 0x3000]

/-- Models the source's emptiness test `!s.trim()` (line 110): true iff
every character of `s` is whitespace. -/
def isBlank (s : Str) : Bool := s.all isJsWhitespace

/-! ### JS objects as insertion-ordered association lists -/

/-- Property read `m[k]`: the value at key `k`, if present. -/
def recordGet {V : Type} (m : List (Str × V)) (k : Str) : Option V :=
  match m with
  | [] => none
  | (k1, v) :: rest => if k1 = k then some v else recordGet rest k

/-- Property write `m[k] = v`: overwrite in place if the key exists
(JS keeps the original insertion position), otherwise append. -/
def recordSet {V : Type} (m : List (Str × V)) (k : Str) (v : V) : List (Str × V) :=
  match m with
  | [] => [(k, v)]
  | (k1, v1) :: rest =>
    if k1 = k then (k1, v) :: rest else (k1, v1) :: recordSet rest k v

/-- The source's accumulation `m[k] = (m[k] || 0) + v` (line 161). -/
def recordAdd (m : List (Str × Nat)) (k : Str) (v : Nat) : List (Str × Nat) :=
  match m with
  | [] => [(k, v)]
  | (k1, v1) :: rest =>
    if k1 = k then (k1, v1 + v) :: rest else (k1, v1) :: recordAdd rest k v

/-! ### The keyword scorer (source lines 33-36 and 116-156)

`escapeRegex` escapes every regex metacharacter of the keyword
(`.replace(/[.+?^${}()|[\]\\]/g, '\\$&')`, which covers all JS regex
metacharacters other than `*`) and turns `*` into `\w`; the scorer then
matches `new RegExp('\\b' + escaped, 'gi')` against the corpus and
counts the matches.  The compiled pattern is therefore `\b` followed by
a sequence of tokens, each either a case-insensitive literal character
or `\w`. -/

/-- A token of the compiled keyword pattern. -/
inductive RTok where
  | lit (c : Char)
  | wordAny
deriving DecidableEq, Repr

/-- Compilation of a keyword by `escapeRegex`: `*` becomes `\w`
(one word character), every other character is a literal. -/
def keywordToks (kw : Str) : List RTok :=
  kw.map (fun c => if c = '*' then RTok.wordAny else RTok.lit c)

/-- Whether one pattern token matches one corpus character
(case-insensitively for literals, per the `i` flag). -/
def tokMatch : RTok → Char → Bool
  | RTok.lit a, c => lowerCode a == lowerCode c
  | RTok.wordAny, c => isWordChar c

/-- Whether the token sequence matches at the start of `cs`. -/
def toksMatchAt : List RTok → Str → Bool
  | [], _ => true
  | _ :: _, [] => false
  | t :: ts, c :: cs => tokMatch t c && toksMatchAt ts cs

/-- `true` iff the optional character is a word character (`none` stands
for out-of-bounds, which regex `\b` treats as a non-word position). -/
def optIsWord : Option Char → Bool
  | none => false
  | some c => isWordChar c

/-- The regex `\b` assertion between a previous and a current character. -/
def wordBoundary (prev cur : Option Char) : Bool :=
  optIsWord prev != optIsWord cur

/-- One pass of the JS global regex scan `corpus.match(/\b.../gi)`:
walks the corpus one character at a time; `prev` is the character before
the current position, `skip` the number of characters still being
consumed by the previous match (the engine resumes at the match end;
an empty pattern advances by one).  Counts the non-overlapping matches. -/
def regexCountAux (toks : List RTok) : Str → Option Char → Nat → Nat
  | [], prev, skip =>
    if skip == 0 && toks.isEmpty && wordBoundary prev none then 1 else 0
  | c :: rest, prev, skip =>
    if 0 < skip then regexCountAux toks rest (some c) (skip - 1)
    else if wordBoundary prev (some c) && toksMatchAt toks (c :: rest) then
      1 + regexCountAux toks rest (some c) (toks.length - 1)
    else regexCountAux toks rest (some c) 0

/-- The count the source computes for one keyword (lines 120-125):
number of global, case-insensitive matches of `\b` + compiled keyword. -/
def countMatches (kw corpus : Str) : Nat :=
  regexCountAux (keywordToks kw) corpus none 0

/-! Spec-side matcher, written from the claim's words for the refinement
comparison: non-overlapping, case-insensitive matches of the keyword as
a *word-start-anchored* prefix ("any corpus word beginning with the
keyword text counts"), the wildcard `*` matching exactly one
word-constituent character. -/

/-- Spec-side: the keyword matches at the start of `cs`
(case-insensitively; `*` matches exactly one word character). -/
def kwMatchAt : Str → Str → Bool
  | [], _ => true
  | _ :: _, [] => false
  | k :: ks, c :: cs =>
    (if k = '*' then isWordChar c else lowerCode k == lowerCode c) && kwMatchAt ks cs

/-- Spec-side: the current position is the start of a word (position 0,
or the previous character is not word-constituent). -/
def wordStart (prev : Option Char) : Bool := !(optIsWord prev)

/-- Spec-side scan: counts non-overlapping keyword occurrences anchored
at word starts, scanning left to right. -/
def specCountAux (kw : Str) : Str → Option Char → Nat → Nat
  | [], _, _ => 0
  | c :: rest, prev, skip =>
    if 0 < skip then specCountAux kw rest (some c) (skip - 1)
    else if wordStart prev && kwMatchAt kw (c :: rest) then
      1 + specCountAux kw rest (some c) (kw.length - 1)
    else specCountAux kw rest (some c) 0

/-- Spec-side count of word-start-anchored keyword matches. -/
def specCount (kw corpus : Str) : Nat := specCountAux kw corpus none 0

/-! ### Category scoring and aggregation (source lines 114-178) -/

/-- A per-category result (`GenreResult` / `TagResult` of `types.ts`):
category name, total score, and the `hits` record keyword -> count. -/
structure CategoryResult where
  name : Str
  score : Nat
  hits : List (Str × Nat)
deriving DecidableEq, Repr

/-- A scan table: category name -> ordered keyword list
(`GENRE_KEYWORDS` / `TAG_KEYWORDS`, supplied as configuration data). -/
abbrev ScanTable := List (Str × List Str)

/-- One iteration of the scorer's keyword loop (lines 120-130): when
the match count is positive, record `hits[keyword] = count` and add the
count to the running total; otherwise leave the accumulator unchanged. -/
def scoreStep (corpus : Str) (acc : Nat × List (Str × Nat)) (kw : Str) :
    Nat × List (Str × Nat) :=
  let count := countMatches kw corpus
  if 0 < count then (acc.1 + count, recordSet acc.2 kw count) else acc

/-- The inner keyword loop of the scorer (lines 120-131), starting from
score `0` and an empty `hits` record. -/
def scoreCategory (corpus : Str) (kws : List Str) : Nat × List (Str × Nat) :=
  kws.foldl (scoreStep corpus) (0, [])

/-- The `CategoryResult` assembled for one table entry. -/
def mkCategoryResult (corpus : Str) (e : Str × List Str) : CategoryResult :=
  let r := scoreCategory corpus e.2
  ⟨e.1, r.1, r.2⟩

/-- The per-table loop (lines 115-136 resp. 138-156): a result is pushed
only when its total score is positive. -/
def scoreTable (corpus : Str) (table : ScanTable) : List CategoryResult :=
  match table with
  | [] => []
  | e :: rest =>
    let r := mkCategoryResult corpus e
    if 0 < r.score then r :: scoreTable corpus rest else scoreTable corpus rest

/-- Accumulating one result's `hits` record into `allHitsMap`
(lines 160-163). -/
def addHits (acc : List (Str × Nat)) (hits : List (Str × Nat)) : List (Str × Nat) :=
  hits.foldl (fun a e => recordAdd a e.1 e.2) acc

/-- The aggregate map over `[...genreResults, ...tagResults]`
(lines 158-163). -/
def allHitsMap (results : List CategoryResult) : List (Str × Nat) :=
  results.foldl (fun acc r => addHits acc r.hits) []

/-- Stable insertion step for a descending sort: the new element goes
after every element whose key is `≥` its own (equal keys keep their
original relative order, as ES2019 `Array.prototype.sort` requires). -/
def insertDescBy {α : Type} (key : α → Nat) (a : α) : List α → List α
  | [] => [a]
  | b :: l => if key a ≤ key b then b :: insertDescBy key a l else a :: b :: l

/-- The unique stable descending sort by `key`; models
`.sort((a, b) => b.key - a.key)` (lines 166 and 170-171). -/
def sortDescBy {α : Type} (key : α → Nat) (l : List α) : List α :=
  l.foldl (fun acc a => insertDescBy key a acc) []

/-- The returned analysis snapshot (`AnalysisResult` of `types.ts`);
aggregate entries are keyword/count pairs (`KeywordHit`). -/
structure AnalysisResult where
  genres : List CategoryResult
  tags : List CategoryResult
  allHits : List (Str × Nat)
deriving DecidableEq, Repr

/-- Steps 4-7 of the source (lines 114-178): score both tables against
the corpus, aggregate the hits of the (unsorted) results, then sort
categories by descending score and aggregates by descending count. -/
def analyze (corpus : Str) (genreTable tagTable : ScanTable) : AnalysisResult :=
  let g := scoreTable corpus genreTable
  let t := scoreTable corpus tagTable
  let ah := allHitsMap (g ++ t)
  ⟨sortDescBy (fun r => r.score) g, sortDescBy (fun r => r.score) t,
    sortDescBy (fun e => e.2) ah⟩

/-! ### Manifest collection (source lines 72-80) -/

/-- One `<item>` declaration of the manifest as seen through
`getAttribute` (which yields `null` for a missing attribute). -/
structure ManifestItemDecl where
  id : Option Str
  href : Option Str
  mediaType : Option Str
deriving DecidableEq, Repr

/-- `s` starts with `sub` (element-exact). -/
def startsWith {α : Type} [DecidableEq α] : List α → List α → Bool
  | _, [] => true
  | [], _ :: _ => false
  | c :: cs, d :: ds => (if c = d then true else false) && startsWith cs ds

/-- `s.includes(sub)`: substring containment, as JS
`String.prototype.includes` (which is case-sensitive). -/
def containsSub {α : Type} [DecidableEq α] : List α → List α → Bool
  | [], sub => sub.isEmpty
  | c :: rest, sub => startsWith (c :: rest) sub || containsSub rest sub

/-- JS string truthiness of an attribute value: `null` and the empty
string are falsy. -/
def truthyStr : Option Str → Bool
  | none => false
  | some s => !s.isEmpty

/-- The collection predicate of line 77:
`id && href && (mediaType?.includes('html') || mediaType?.includes('xhtml'))`.
`String.prototype.includes` is case-sensitive. -/
def itemCollected (it : ManifestItemDecl) : Bool :=
  truthyStr it.id && truthyStr it.href &&
    ((match it.mediaType with
      | none => false
      | some mt => containsSub mt "html".toList) ||
     (match it.mediaType with
      | none => false
      | some mt => containsSub mt "xhtml".toList))

/-- The `manifestItems` record id -> href built by lines 72-80
(later declarations with the same id overwrite earlier ones). -/
def collectManifest (items : List ManifestItemDecl) : List (Str × Str) :=
  items.foldl
    (fun acc it =>
      if itemCollected it then recordSet acc (it.id.getD []) (it.href.getD [])
      else acc)
    []

/-- Spec-side predicate written from the claim's words, for the
refutation: case-INSENSITIVE substring match of `html` / `xhtml`
against the media type. -/
def itemCollectedInsensitive (it : ManifestItemDecl) : Bool :=
  truthyStr it.id && truthyStr it.href &&
    (match it.mediaType with
     | none => false
     | some mt =>
       containsSub (mt.map lowerCode) ("html".toList.map lowerCode) ||
         containsSub (mt.map lowerCode) ("xhtml".toList.map lowerCode))

/-! ### The pipeline (source lines 46-112)

The zip archive (after `JSZip.loadAsync`) is a finite map from entry
paths to text contents; `zip.file(path)` is an exact, case-sensitive
lookup.  The two `DOMParser.parseFromString(..., 'application/xml')`
calls are modelled as functions producing views of the two documents;
`parseFromString` never throws, and on input that is not well-formed
XML it produces an error document in which `querySelector('rootfile')`
resp. `querySelectorAll('manifest item')` / `querySelectorAll('spine
itemref')` find nothing. -/

/-- The `<rootfile>` element as seen by the source:
its `full-path` attribute (`null` when absent). -/
structure RootfileView where
  fullPath : Option Str
deriving DecidableEq, Repr

/-- The parse of `container.xml`: the first `rootfile` element found by
`querySelector('rootfile')`, if any. -/
structure ContainerView where
  rootfile : Option RootfileView
deriving DecidableEq, Repr

/-- The parse of the OPF document: its manifest item declarations and
the `idref` attributes of the spine's `itemref` elements, in document
order. -/
structure OpfView where
  manifestItems : List ManifestItemDecl
  spineIdrefs : List (Option Str)
deriving DecidableEq, Repr

/-- The terminal outcomes of `analyzeEpub`, one constructor per `throw`
site of the source, plus the `URIError` escaping from
`decodeURIComponent` (line 96), which the source does not catch. -/
inductive EpubError where
  /-- `'META-INF/container.xml not found in epub.'` (line 55) -/
  | missingContainer
  /-- `'Could not find rootfile path in container.xml.'` (line 61) -/
  | missingRootfilePath
  /-- ``OPF file not found at path: ...`` (line 67) -/
  | opfNotFound (path : Str)
  /-- `"Could not extract any text content from the ePub spine files."`
  (line 111) -/
  | noExtractableContent
  /-- `URIError: URI malformed`, thrown by `decodeURIComponent` on a
  malformed percent-encoding sequence and propagated uncaught. -/
  | uriError
deriving DecidableEq, Repr

/-- The spec's documented error taxonomy (spec section 7), restricted to
the outcomes the code can actually produce.  `URIError` appears nowhere
in the taxonomy. -/
def documentedError : EpubError → Bool
  | EpubError.missingContainer => true      -- `MissingContainer`
  | EpubError.missingRootfilePath => true   -- `MissingRootfilePath`
  | EpubError.opfNotFound _ => true         -- `ManifestNotFound`
  | EpubError.noExtractableContent => true  -- `NoExtractableContent`
  | EpubError.uriError => false

/-! #### `decodeURIComponent` (ECMA-262 `Decode`)

Characters other than `%` pass through; every `%` must be followed by
two hex digits; the decoded bytes must form valid (strict) UTF-8 where
a multi-byte sequence's continuation bytes are themselves
percent-encoded.  Any violation throws `URIError` (modelled `none`). -/

/-- Value of one hex digit, if it is one. -/
def hexDigit (c : Char) : Option Nat :=
  if 48 ≤ c.toNat && c.toNat ≤ 57 then some (c.toNat - 48)
  else if 65 ≤ c.toNat && c.toNat ≤ 70 then some (c.toNat - 55)
  else if 97 ≤ c.toNat && c.toNat ≤ 102 then some (c.toNat - 87)
  else none

/-- A lexical unit of `decodeURIComponent`: a plain character, or one
byte written as a `%XX` escape. -/
inductive PctTok where
  | chr (c : Char)
  | byte (b : Nat)
deriving DecidableEq, Repr

/-- Tokenization pass: each `%XX` becomes a byte; a `%` not followed by
two hex digits is malformed. -/
def pctTokens : Str → Option (List PctTok)
  | [] => some []
  | '%' :: h1 :: h2 :: rest =>
    match hexDigit h1, hexDigit h2, pctTokens rest with
    | some a, some b, some ts => some (PctTok.byte (16 * a + b) :: ts)
    | _, _, _ => none
  | ['%'] => none
  | ['%', _] => none
  | c :: rest =>
    match pctTokens rest with
    | some ts => some (PctTok.chr c :: ts)
    | none => none

/-- A UTF-8 continuation byte (`0x80`-`0xBF`). -/
def contByte (n : Nat) : Bool := 128 ≤ n && n ≤ 191

/-- Decoding pass: plain characters pass through; escape bytes must form
strict UTF-8 scalar sequences (no overlong forms, no surrogates). -/
def pctChars : List PctTok → Option Str
  | [] => some []
  | PctTok.chr c :: rest => (pctChars rest).map (c :: ·)
  | PctTok.byte b :: rest =>
    if b < 128 then (pctChars rest).map (Char.ofNat b :: ·)
    else if 194 ≤ b && b ≤ 223 then
      match rest with
      | PctTok.byte b2 :: rest2 =>
        if contByte b2 then
          (pctChars rest2).map (Char.ofNat ((b - 192) * 64 + (b2 - 128)) :: ·)
        else none
      | _ => none
    else if 224 ≤ b && b ≤ 239 then
      match rest with
      | PctTok.byte b2 :: PctTok.byte b3 :: rest2 =>
        let lo2 := if b = 224 then 160 else 128
        let hi2 := if b = 237 then 159 else 191
        if (lo2 ≤ b2 && b2 ≤ hi2) && contByte b3 then
          (pctChars rest2).map
            (Char.ofNat ((b - 224) * 4096 + (b2 - 128) * 64 + (b3 - 128)) :: ·)
        else none
      | _ => none
    else if 240 ≤ b && b ≤ 244 then
      match rest with
      | PctTok.byte b2 :: PctTok.byte b3 :: PctTok.byte b4 :: rest2 =>
        let lo2 := if b = 240 then 144 else 128
        let hi2 := if b = 244 then 143 else 191
        if (lo2 ≤ b2 && b2 ≤ hi2) && (contByte b3 && contByte b4) then
          (pctChars rest2).map
            (Char.ofNat
              ((b - 240) * 262144 + (b2 - 128) * 4096 + (b3 - 128) * 64 + (b4 - 128)) :: ·)
        else none
      | _ => none
    else none

/-- `decodeURIComponent`; `none` models the thrown `URIError`. -/
def pctDecode (s : Str) : Option Str := (pctTokens s).bind pctChars

/-! #### URL path resolution against the fake base `file:///` -/

/-- Splits a path at every `/`, keeping empty segments. -/
def splitSlash : Str → List Str
  | [] => [[]]
  | c :: rest =>
    match splitSlash rest with
    | [] => [[]]
    | seg :: segs => if c = '/' then [] :: seg :: segs else (c :: seg) :: segs

/-- WHATWG path-segment normalization: `.` is dropped, `..` pops the
previous segment (clamped at the root), and a trailing `.` or `..`
leaves a trailing empty segment (the trailing slash). -/
def removeDotSegsAux : List Str → List Str → List Str
  | stack, [] => stack.reverse
  | stack, seg :: rest =>
    if seg = ['.', '.'] then
      let popped : List Str := match stack with | [] => [] | _ :: s => s
      match rest with
      | [] => ([] :: popped).reverse
      | _ :: _ => removeDotSegsAux popped rest
    else if seg = ['.'] then
      match rest with
      | [] => ([] :: stack).reverse
      | _ :: _ => removeDotSegsAux stack rest
    else removeDotSegsAux (seg :: stack) rest

/-- Joins segments with `/` (inverse of `splitSlash`). -/
def joinSegs : List Str → Str
  | [] => []
  | [s] => s
  | s :: rest => s ++ '/' :: joinSegs rest

/-- The path portion of a URL reference: everything before the first
`#` (fragment) and, within that, before the first `?` (query). -/
def refPathPart (s : Str) : Str :=
  (s.takeWhile (fun c => decide (c ≠ '#'))).takeWhile (fun c => decide (c ≠ '?'))

/-- Path segments of `new URL(p, 'file:///')` for a scheme-less `p`. -/
def basePathSegs (p : Str) : List Str :=
  let q := refPathPart p
  let q := if q.head? = some '/' then q.drop 1 else q
  removeDotSegsAux [] (splitSlash q)

/-- Models line 95-96 of the source:
`new URL(href, new URL(opfPath, 'file:///'))`, then
`decodeURIComponent(url.pathname.substring(1).split('#')[0])`.
The URL parser strips the fragment and query, merges a relative
reference with the base's directory, removes dot segments, and leaves
`%`-escapes in the pathname untouched (characters it would itself
percent-encode decode back to themselves, so the composition with
`decodeURIComponent` is the identity on them); `decodeURIComponent`
then throws (`none`) on a malformed escape. -/
def resolveChapterPath (opfPath href : Str) : Option Str :=
  let bSegs := basePathSegs opfPath
  let h := refPathPart href
  let tSegs :=
    if h.isEmpty then bSegs
    else if h.head? = some '/' then removeDotSegsAux [] (splitSlash (h.drop 1))
    else removeDotSegsAux [] (bSegs.dropLast ++ splitSlash h)
  pctDecode (joinSegs tSegs)

/-! #### Text extraction (source lines 86-112) -/

/-- The spine loop of lines 89-108.  `strip` is
`getHtmlTextContent` (DOM HTML parsing + `textContent`, a total
function of the markup).  For each idref: skip falsy idrefs, idrefs
without a collected manifest entry, and falsy hrefs; resolve the href
(a malformed percent-escape throws, ending the whole run); skip
already-seen resolved paths; read the entry if it exists and append its
stripped text plus a space. -/
def extractLoop (zip : List (Str × Str)) (opfPath : Str)
    (items : List (Str × Str)) (strip : Str → Str) :
    List (Option Str) → List Str → Str → Except EpubError Str
  | [], _, acc => Except.ok acc
  | ref :: rest, seen, acc =>
    match ref with
    | none => extractLoop zip opfPath items strip rest seen acc
    | some idref =>
      if idref.isEmpty then extractLoop zip opfPath items strip rest seen acc
      else
        match recordGet items idref with
        | none => extractLoop zip opfPath items strip rest seen acc
        | some href =>
          if href.isEmpty then extractLoop zip opfPath items strip rest seen acc
          else
            match resolveChapterPath opfPath href with
            | none => Except.error EpubError.uriError
            | some path =>
              if path ∈ seen then extractLoop zip opfPath items strip rest seen acc
              else
                match recordGet zip path with
                | none => extractLoop zip opfPath items strip rest (path :: seen) acc
                | some content =>
                  extractLoop zip opfPath items strip rest (path :: seen)
                    (acc ++ strip content ++ [' '])

/-- The extraction stage: the spine loop followed by the emptiness check
of lines 110-112. -/
def extractText (zip : List (Str × Str)) (opfPath : Str)
    (items : List (Str × Str)) (strip : Str → Str)
    (refs : List (Option Str)) : Except EpubError Str :=
  match extractLoop zip opfPath items strip refs [] [] with
  | Except.error e => Except.error e
  | Except.ok c =>
    if isBlank c then Except.error EpubError.noExtractableContent
    else Except.ok c

/-- The whole of `analyzeEpub` after `JSZip.loadAsync` (lines 50-178).
`parseContainer` and `parseOpf` are the two `DOMParser` calls, `strip`
is `getHtmlTextContent`. -/
def analyzeEpub (zip : List (Str × Str))
    (parseContainer : Str → ContainerView) (parseOpf : Str → OpfView)
    (strip : Str → Str) (genreTable tagTable : ScanTable) :
    Except EpubError AnalysisResult :=
  match recordGet zip "META-INF/container.xml".toList with
  | none => Except.error EpubError.missingContainer
  | some containerStr =>
    match (parseContainer containerStr).rootfile with
    | none => Except.error EpubError.missingRootfilePath
    | some rf =>
      match rf.fullPath with
      | none => Except.error EpubError.missingRootfilePath
      | some opfPath =>
        if opfPath.isEmpty then Except.error EpubError.missingRootfilePath
        else
          match recordGet zip opfPath with
          | none => Except.error (EpubError.opfNotFound opfPath)
          | some opfStr =>
            let odoc := parseOpf opfStr
            let items := collectManifest odoc.manifestItems
            match extractText zip opfPath items strip odoc.spineIdrefs with
            | Except.error e => Except.error e
            | Except.ok corpus => Except.ok (analyze corpus genreTable tagTable)

/-! ### Derived notions used by the statements -/

/-- Keys of an association list, in order. -/
def recKeys {V : Type} (m : List (Str × V)) : List Str := m.map Prod.fst

/-- The per-keyword hits a category's keyword list produces, in list
order: one entry per keyword with a positive match count. -/
def catHits (corpus : Str) (kws : List Str) : List (Str × Nat) :=
  kws.filterMap (fun kw =>
    let c := countMatches kw corpus
    if 0 < c then some (kw, c) else none)

/-- Total value carried by key `k` in an association list (sum over all
entries with that key). -/
def keySum (m : List (Str × Nat)) (k : Str) : Nat :=
  ((m.filter (fun e => decide (e.1 = k))).map (fun e => e.2)).sum

/-! ### Lemmas for the scorer refinement (C1) -/

theorem isWordChar_of_lowerCode_eq {a b : Char} (ha : isWordChar a = true)
    (h : lowerCode a = lowerCode b) : isWordChar b = true := by
  simp only [isWordChar, lowerCode, Bool.or_eq_true, Bool.and_eq_true,
    decide_eq_true_eq, beq_iff_eq] at *
  split_ifs at h <;> omega

theorem toksMatchAt_eq_kwMatchAt (kw cs : Str) :
    toksMatchAt (keywordToks kw) cs = kwMatchAt kw cs := by
  induction kw generalizing cs with
  | nil => simp [keywordToks, toksMatchAt, kwMatchAt]
  | cons k ks ih =>
    cases cs with
    | nil => simp [keywordToks, toksMatchAt, kwMatchAt]
    | cons c rest =>
      simp only [keywordToks, List.map_cons, toksMatchAt, kwMatchAt]
      by_cases hk : k = '*' <;>
        simp [hk, tokMatch, ← ih, keywordToks]

theorem isWordChar_head_of_kwMatchAt {k : Char} {ks : Str} {c : Char} {cs : Str}
    (hw : k = '*' ∨ isWordChar k = true)
    (h : kwMatchAt (k :: ks) (c :: cs) = true) : isWordChar c = true := by
  simp only [kwMatchAt, Bool.and_eq_true] at h
  rcases hw with hw | hw
  · simpa [hw] using h.1
  · rcases h with ⟨h1, -⟩
    rw [if_neg (by rintro rfl; simp [isWordChar] at hw)] at h1
    exact isWordChar_of_lowerCode_eq hw (by simpa using h1)

theorem regexCountAux_eq_specCountAux {k : Char} {ks : Str}
    (hw : k = '*' ∨ isWordChar k = true) :
    ∀ (cs : Str) (prev : Option Char) (skip : Nat),
      regexCountAux (keywordToks (k :: ks)) cs prev skip
        = specCountAux (k :: ks) cs prev skip := by
  intro cs
  induction cs with
  | nil =>
    intro prev skip
    simp [regexCountAux, specCountAux, keywordToks]
  | cons c rest ih =>
    intro prev skip
    simp only [regexCountAux, specCountAux]
    by_cases hs : 0 < skip
    · simp [hs, ih]
    · simp only [hs, if_false]
      rw [toksMatchAt_eq_kwMatchAt]
      by_cases hm : kwMatchAt (k :: ks) (c :: rest) = true
      · have hc : isWordChar c = true := isWordChar_head_of_kwMatchAt hw hm
        have : wordBoundary prev (some c) = wordStart prev := by
          simp [wordBoundary, wordStart, optIsWord, hc]
        have hlen : (keywordToks (k :: ks)).length = (k :: ks).length := by
          simp [keywordToks]
        rw [this, hm, hlen]
        split <;> simp [ih]
      · simp only [Bool.not_eq_true] at hm
        simp [hm, ih]

theorem countMatches_eq_specCount {k : Char} {ks : Str}
    (hw : k = '*' ∨ isWordChar k = true) (corpus : Str) :
    countMatches (k :: ks) corpus = specCount (k :: ks) corpus :=
  regexCountAux_eq_specCountAux hw corpus none 0

/-- C1, counterexample.  The claim quantifies over *every* keyword and
asserts word-start anchoring, but the compiled pattern anchors at a
regex word *boundary*: for the keyword `-a` (first character not
word-constituent) the scorer finds a match inside the corpus `x-a`
even though no corpus word begins with `-a` (the match position follows
the word character `x`, so it is not a word start), while the
word-start-anchored count of the claim is `0`. -/
theorem C1_counterexample :
    countMatches "-a".toList "x-a".toList = 1 ∧
      specCount "-a".toList "x-a".toList = 0 := by
  constructor <;> decide

/-- C1, amended: for every corpus and every keyword whose first
character is word-constituent or the wildcard `*` (in particular every
keyword of the repository's tables), the scorer's count — non-empty
keyword compiled by `escapeRegex` to a `\b`-anchored case-insensitive
pattern with `*` as `\w` and every other character literal, matched
globally — equals the count of non-overlapping, case-insensitive,
word-start-anchored prefix occurrences of the keyword in which the
wildcard matches exactly one word-constituent character. -/
theorem C1_amended_prefix_matching (k : Char) (ks : Str) (corpus : Str)
    (hw : k = '*' ∨ isWordChar k = true) :
    countMatches (k :: ks) corpus = specCount (k :: ks) corpus :=
  countMatches_eq_specCount hw corpus

/-- C1, witness: the amended theorem applied to the spec's own examples:
keyword `magic` on a corpus containing `Magical` (prefix match), and
the wildcard keyword `wom*n` on `woman women womn`. -/
theorem C1_amended_witness :
    (('m' = '*' ∨ isWordChar 'm' = true) ∧
      countMatches "magic".toList "A Magical story".toList
        = specCount "magic".toList "A Magical story".toList) ∧
    (('w' = '*' ∨ isWordChar 'w' = true) ∧
      countMatches "wom*n".toList "woman women womn".toList
        = specCount "wom*n".toList "woman women womn".toList) ∧
    countMatches "magic".toList "A Magical story".toList = 1 ∧
    countMatches "wom*n".toList "woman women womn".toList = 2 :=
  ⟨⟨Or.inr (by decide),
      C1_amended_prefix_matching 'm' "agic".toList "A Magical story".toList
        (Or.inr (by decide))⟩,
    ⟨Or.inr (by decide),
      C1_amended_prefix_matching 'w' "om*n".toList "woman women womn".toList
        (Or.inr (by decide))⟩,
    by decide, by decide⟩

/-! ### Lemmas for the scorer results (C3, C9) -/

theorem scoreTable_eq_filter_map (corpus : Str) (table : ScanTable) :
    scoreTable corpus table
      = (table.map (mkCategoryResult corpus)).filter (fun r => decide (0 < r.score)) := by
  induction table with
  | nil => rfl
  | cons e rest ih =>
    simp only [scoreTable, List.map_cons, List.filter_cons]
    by_cases h : 0 < (mkCategoryResult corpus e).score <;> simp [h, ih]

theorem recordSet_of_not_mem {V : Type} {m : List (Str × V)} {k : Str} (v : V)
    (h : k ∉ recKeys m) : recordSet m k v = m ++ [(k, v)] := by
  induction m with
  | nil => rfl
  | cons e rest ih =>
    obtain ⟨k1, v1⟩ := e
    simp only [recKeys, List.map_cons, List.mem_cons, not_or] at h
    have hne : ¬k1 = k := fun hh => h.1 hh.symm
    have h2 : k ∉ recKeys rest := h.2
    simp only [recordSet, if_neg hne, List.cons_append]
    rw [ih h2]

theorem mem_recordSet {V : Type} {m : List (Str × V)} {k : Str} {v : V} {e : Str × V}
    (h : e ∈ recordSet m k v) : e = (k, v) ∨ e ∈ m := by
  induction m with
  | nil => simpa [recordSet] using h
  | cons e1 rest ih =>
    obtain ⟨k1, v1⟩ := e1
    simp only [recordSet] at h
    split at h
    · rename_i hcond
      rcases List.mem_cons.mp h with h | h
      · left; rw [h, hcond]
      · right; exact List.mem_cons_of_mem _ h
    · rcases List.mem_cons.mp h with h | h
      · right; rw [h]; exact List.mem_cons_self _ _
      · rcases ih h with h | h
        · left; exact h
        · right; exact List.mem_cons_of_mem _ h

theorem scoreCategory_fst (corpus : Str) (kws : List Str) :
    (scoreCategory corpus kws).1 = (kws.map (fun kw => countMatches kw corpus)).sum := by
  suffices h : ∀ acc : Nat × List (Str × Nat),
      (kws.foldl (scoreStep corpus) acc).1
        = acc.1 + (kws.map (fun kw => countMatches kw corpus)).sum by
    simpa [scoreCategory] using h (0, [])
  induction kws with
  | nil => intro acc; simp
  | cons kw rest ih =>
    intro acc
    rw [List.foldl_cons, ih, List.map_cons, List.sum_cons]
    simp only [scoreStep]
    split <;> simp <;> omega

theorem scoreCategory_snd_of_nodup (corpus : Str) (kws : List Str)
    (hnd : kws.Nodup) :
    (scoreCategory corpus kws).2 = catHits corpus kws := by
  suffices h : ∀ (ks : List Str) (acc : Nat × List (Str × Nat)), ks.Nodup →
      (∀ kw ∈ ks, kw ∉ recKeys acc.2) →
      (ks.foldl (scoreStep corpus) acc).2 = acc.2 ++ catHits corpus ks by
    simpa [scoreCategory] using h kws (0, []) hnd (by simp [recKeys])
  intro ks
  induction ks with
  | nil => intro acc _ _; simp [catHits]
  | cons kw rest ih =>
    intro acc hnd2 hdisj
    rw [List.foldl_cons]
    have hkw : kw ∉ recKeys acc.2 := hdisj kw (List.mem_cons_self _ _)
    have hndr := (List.nodup_cons.mp hnd2).2
    have hkwr := (List.nodup_cons.mp hnd2).1
    by_cases h : 0 < countMatches kw corpus
    · have hstep : scoreStep corpus acc kw
          = (acc.1 + countMatches kw corpus, acc.2 ++ [(kw, countMatches kw corpus)]) := by
        simp only [scoreStep]
        rw [if_pos h, recordSet_of_not_mem _ hkw]
      rw [ih (scoreStep corpus acc kw) hndr ?_]
      · rw [hstep]
        simp [catHits, List.filterMap_cons, h]
      · intro kw2 h2
        rw [hstep]
        simp only [recKeys, List.map_append, List.mem_append, not_or]
        constructor
        · exact fun hmem => hdisj kw2 (List.mem_cons_of_mem _ h2) hmem
        · simp only [List.map_cons, List.map_nil, List.mem_singleton]
          exact fun hmem => hkwr (hmem ▸ h2)
    · have hstep : scoreStep corpus acc kw = acc := by
        simp only [scoreStep]; rw [if_neg h]
      rw [hstep, ih acc hndr (fun kw2 h2 => hdisj kw2 (List.mem_cons_of_mem _ h2))]
      simp [catHits, List.filterMap_cons, h]

theorem catHits_values_sum (corpus : Str) (kws : List Str) :
    ((catHits corpus kws).map (fun e => e.2)).sum
      = (kws.map (fun kw => countMatches kw corpus)).sum := by
  induction kws with
  | nil => rfl
  | cons kw rest ih =>
    simp only [catHits, List.filterMap_cons, List.map_cons, List.sum_cons]
    by_cases h : 0 < countMatches kw corpus
    · rw [if_pos h]
      simp only [List.map_cons, List.sum_cons]
      rw [show (List.filterMap (fun kw =>
          let c := countMatches kw corpus;
          if 0 < c then some (kw, c) else none) rest) = catHits corpus rest from rfl, ih]
    · rw [if_neg h]
      rw [show (List.filterMap (fun kw =>
          let c := countMatches kw corpus;
          if 0 < c then some (kw, c) else none) rest) = catHits corpus rest from rfl, ih]
      omega

theorem scoreCategory_hits_pos (corpus : Str) (kws : List Str) :
    ∀ e ∈ (scoreCategory corpus kws).2, 1 ≤ e.2 := by
  suffices h : ∀ (ks : List Str) (acc : Nat × List (Str × Nat)),
      (∀ e ∈ acc.2, 1 ≤ e.2) →
      ∀ e ∈ (ks.foldl (scoreStep corpus) acc).2, 1 ≤ e.2 by
    exact h kws (0, []) (by simp)
  intro ks
  induction ks with
  | nil => intro acc hacc; simpa using hacc
  | cons kw rest ih =>
    intro acc hacc
    rw [List.foldl_cons]
    refine ih _ ?_
    intro e he
    by_cases h : 0 < countMatches kw corpus
    · have hstep : scoreStep corpus acc kw
          = (acc.1 + countMatches kw corpus, recordSet acc.2 kw (countMatches kw corpus)) := by
        simp only [scoreStep]; rw [if_pos h]
      rw [hstep] at he
      rcases mem_recordSet he with h2 | h2
      · rw [h2]; exact h
      · exact hacc e h2
    · have hstep : scoreStep corpus acc kw = acc := by
        simp only [scoreStep]; rw [if_neg h]
      rw [hstep] at he
      exact hacc e he

/-- C3, counterexample.  A category with total score 0 does NOT appear
in the scorer's output: against the corpus `hello there`, the
single-category table `Fantasy -> [magic]` scores 0 and the returned
sequence is empty, so the category `Fantasy` of the table appears in no
`CategoryResult` of the result. -/
theorem C3_counterexample :
    scoreTable "hello there".toList [("Fantasy".toList, ["magic".toList])] = [] ∧
      ("Fantasy".toList, ["magic".toList])
        ∈ [(("Fantasy".toList : Str), ["magic".toList])] := by
  constructor
  · decide
  · exact List.mem_singleton_self _

/-- C3, amended: the scorer returns exactly the categories of the table
whose total score is positive, in table order (zero-score categories
are omitted at scoring time, not at presentation time); consequently a
category name appears among the returned results iff some table entry
with that name has a positive score against the corpus. -/
theorem C3_amended_positive_only (corpus : Str) (table : ScanTable) (n : Str) :
    scoreTable corpus table
        = (table.map (mkCategoryResult corpus)).filter (fun r => decide (0 < r.score)) ∧
      ((∃ r ∈ scoreTable corpus table, r.name = n)
        ↔ ∃ e ∈ table, e.1 = n ∧ 0 < (scoreCategory corpus e.2).1) := by
  refine ⟨scoreTable_eq_filter_map corpus table, ?_⟩
  rw [scoreTable_eq_filter_map corpus table]
  constructor
  · rintro ⟨r, hr, hname⟩
    rw [List.mem_filter] at hr
    rcases List.mem_map.mp hr.1 with ⟨e, he, hre⟩
    refine ⟨e, he, ?_, ?_⟩
    · rw [← hname, ← hre]; rfl
    · have := hr.2
      rw [← hre] at this
      simpa [mkCategoryResult] using this
  · rintro ⟨e, he, hname, hpos⟩
    refine ⟨mkCategoryResult corpus e, ?_, hname⟩
    rw [List.mem_filter]
    exact ⟨List.mem_map_of_mem _ he, by simpa [mkCategoryResult] using hpos⟩

/-- C9, counterexample.  A duplicated keyword inside one category's
list makes the recorded score diverge from the sum of the `hits`
counts: with corpus `magic x` and the table `X -> [magic, magic]`, the
returned category has score 2 (the count is added once per list entry)
but its `hits` record is `{magic: 1}`, whose counts sum to 1. -/
theorem C9_counterexample :
    (scoreTable "magic x".toList [("X".toList, ["magic".toList, "magic".toList])]).map
        (fun r => (r.score, (r.hits.map (fun e => e.2)).sum))
      = [(2, 1)] := by
  decide

/-- C9, amended: for every category result the scorer returns, every
count recorded in `hits` is at least 1, and the score equals the sum of
the per-list-entry match counts of the category's keyword list; when
that keyword list has no duplicate keyword (as in the repository's
tables), the score therefore equals the sum of the counts recorded in
`hits`. -/
theorem C9_amended_score_invariants (corpus : Str) (table : ScanTable)
    (r : CategoryResult) (hr : r ∈ scoreTable corpus table) :
    (∀ e ∈ r.hits, 1 ≤ e.2) ∧
      ∃ e ∈ table, r.name = e.1 ∧
        r.score = (e.2.map (fun kw => countMatches kw corpus)).sum ∧
        (e.2.Nodup → r.score = (r.hits.map (fun e => e.2)).sum) := by
  rw [scoreTable_eq_filter_map corpus table] at hr
  rw [List.mem_filter] at hr
  rcases List.mem_map.mp hr.1 with ⟨e, he, hre⟩
  subst hre
  refine ⟨fun e2 he2 => scoreCategory_hits_pos corpus e.2 e2 he2, e, he, rfl, ?_, ?_⟩
  · exact scoreCategory_fst corpus e.2
  · intro hnd
    show (scoreCategory corpus e.2).1 = _
    rw [scoreCategory_fst corpus e.2]
    show _ = (((scoreCategory corpus e.2).2).map (fun e => e.2)).sum
    rw [scoreCategory_snd_of_nodup corpus e.2 hnd, catHits_values_sum]

/-- C9, witness: the amended theorem applied to the corpus
`magic spell magic` and the duplicate-free table
`Fantasy -> [magic, spell]` (score 3 = 2 + 1, hits summing to 3). -/
theorem C9_amended_witness :
    ((⟨"Fantasy".toList, 3, [("magic".toList, 2), ("spell".toList, 1)]⟩ : CategoryResult)
        ∈ scoreTable "magic spell magic".toList
          [("Fantasy".toList, ["magic".toList, "spell".toList])]) ∧
      (∀ e ∈ [(("magic".toList : Str), 2), ("spell".toList, 1)], 1 ≤ e.2) ∧
      ∃ e ∈ [(("Fantasy".toList : Str), ["magic".toList, "spell".toList])],
        ("Fantasy".toList : Str) = e.1 ∧
        3 = (e.2.map (fun kw => countMatches kw "magic spell magic".toList)).sum ∧
        (e.2.Nodup →
          3 = (([(("magic".toList : Str), 2), ("spell".toList, 1)]).map
                (fun e => e.2)).sum) := by
  have hmem : (⟨"Fantasy".toList, 3, [("magic".toList, 2), ("spell".toList, 1)]⟩ : CategoryResult)
      ∈ scoreTable "magic spell magic".toList
        [("Fantasy".toList, ["magic".toList, "spell".toList])] := by decide
  exact ⟨hmem, C9_amended_score_invariants "magic spell magic".toList
    [("Fantasy".toList, ["magic".toList, "spell".toList])] _ hmem⟩

/-! ### Lemmas for manifest collection (C4) -/

theorem containsSub_of_startsWith {α : Type} [DecidableEq α] {s sub : List α}
    (h : startsWith s sub = true) : containsSub s sub = true := by
  cases s with
  | nil =>
    cases sub with
    | nil => rfl
    | cons d ds => simp [startsWith] at h
  | cons c cs => simp [containsSub, h]

theorem containsSub_cons_sub {α : Type} [DecidableEq α] {s : List α} {c : α}
    {sub : List α} (h : containsSub s (c :: sub) = true) :
    containsSub s sub = true := by
  induction s with
  | nil => simp [containsSub] at h
  | cons a rest ih =>
    simp only [containsSub, Bool.or_eq_true] at h ⊢
    rcases h with h | h
    · simp only [startsWith, Bool.and_eq_true] at h
      exact Or.inr (containsSub_of_startsWith h.2)
    · exact Or.inr (ih h)

/-- C4, counterexample.  `String.prototype.includes` is case-sensitive,
so the manifest item with media type `application/XHTML+XML` (uppercase)
is NOT collected, although the claim's case-insensitive predicate
accepts it. -/
theorem C4_counterexample :
    itemCollected ⟨some "a".toList, some "ch.xhtml".toList,
        some "application/XHTML+XML".toList⟩ = false ∧
      itemCollectedInsensitive ⟨some "a".toList, some "ch.xhtml".toList,
        some "application/XHTML+XML".toList⟩ = true := by
  constructor <;> decide

/-- C4, amended: a manifest-item declaration is collected iff its id and
href are non-empty and its declared media type contains the substring
`html` under a CASE-SENSITIVE match (the `xhtml` disjunct of the code is
subsumed, since `xhtml` contains `html`); an uppercase media type such
as `application/XHTML+XML` is therefore dropped, and items failing the
predicate are dropped silently — removing such an item from the
manifest leaves the collected map unchanged. -/
theorem C4_amended_case_sensitive (it : ManifestItemDecl) :
    (itemCollected it = true ↔
      ∃ i, it.id = some i ∧ i ≠ [] ∧
        ∃ hf, it.href = some hf ∧ hf ≠ [] ∧
          ∃ m, it.mediaType = some m ∧ containsSub m "html".toList = true) ∧
    (itemCollected it = false → ∀ pre post : List ManifestItemDecl,
      collectManifest (pre ++ it :: post) = collectManifest (pre ++ post)) := by
  constructor
  · obtain ⟨oi, oh, om⟩ := it
    simp only [itemCollected, truthyStr, Bool.and_eq_true, Bool.or_eq_true]
    constructor
    · rintro ⟨⟨hid, bref⟩, hmt⟩
      cases oi with
      | none => cases hid
      | some i =>
        cases oh with
        | none => cases bref
        | some hf =>
          cases om with
          | none => rcases hmt with h | h <;> cases h
          | some m =>
            refine ⟨i, rfl, by simpa using hid, hf, rfl, by simpa using bref, m, rfl, ?_⟩
            rcases hmt with h | h
            · exact h
            · exact containsSub_cons_sub h
    · rintro ⟨i, hi, hine, hf, hh, hhne, m, hm, hcs⟩
      subst hi; subst hh; subst hm
      exact ⟨⟨by simpa using hine, by simpa using hhne⟩, Or.inl hcs⟩
  · intro hno pre post
    simp only [collectManifest, List.foldl_append, List.foldl_cons]
    simp [hno]

/-- C4, witness: the amended theorem applied to the uppercase-media-type
item: it is not collected, and dropping it from a manifest that also
declares a `text/html` item leaves the collected map unchanged. -/
theorem C4_amended_witness :
    itemCollected ⟨some "b".toList, some "x.xhtml".toList,
        some "application/XHTML+XML".toList⟩ = false ∧
      collectManifest
          [⟨some "a".toList, some "c.html".toList, some "text/html".toList⟩,
           ⟨some "b".toList, some "x.xhtml".toList,
             some "application/XHTML+XML".toList⟩]
        = collectManifest
            [⟨some "a".toList, some "c.html".toList, some "text/html".toList⟩] :=
  ⟨by decide,
    (C4_amended_case_sensitive ⟨some "b".toList, some "x.xhtml".toList,
        some "application/XHTML+XML".toList⟩).2 (by decide)
      [⟨some "a".toList, some "c.html".toList, some "text/html".toList⟩] []⟩

/-! ### Association-list accounting for the aggregate map (C2) -/

theorem recordGet_recordAdd (m : List (Str × Nat)) (k : Str) (v : Nat) (k2 : Str) :
    recordGet (recordAdd m k v) k2
      = if k2 = k then some ((recordGet m k).getD 0 + v) else recordGet m k2 := by
  induction m with
  | nil =>
    by_cases h : k2 = k
    · subst h; simp [recordAdd, recordGet]
    · have h2 : ¬k = k2 := fun hh => h hh.symm
      simp only [recordAdd, recordGet, if_neg h, if_neg h2]
  | cons e rest ih =>
    obtain ⟨k1, v1⟩ := e
    by_cases h1 : k1 = k
    · subst h1
      simp only [recordAdd, if_pos rfl, recordGet]
      by_cases h2 : k1 = k2
      · subst h2; simp
      · have h3 : ¬k2 = k1 := fun hh => h2 hh.symm
        simp only [if_neg h2, if_neg h3]
    · simp only [recordAdd, if_neg h1, recordGet, ih]
      by_cases h2 : k1 = k2
      · subst h2
        simp only [if_pos rfl, if_neg h1]
      · simp only [if_neg h2]

theorem keySum_cons (e : Str × Nat) (rest : List (Str × Nat)) (k : Str) :
    keySum (e :: rest) k = (if e.1 = k then e.2 else 0) + keySum rest k := by
  simp only [keySum, List.filter_cons]
  by_cases h : e.1 = k <;> simp [h]

theorem keySum_eq_zero_of_countP (m : List (Str × Nat)) (k : Str)
    (h : m.countP (fun e => decide (e.1 = k)) = 0) : keySum m k = 0 := by
  induction m with
  | nil => rfl
  | cons e rest ih =>
    rw [List.countP_cons] at h
    rw [keySum_cons]
    by_cases he : e.1 = k
    · simp [he] at h
    · simp [he] at h
      simp only [he, if_false, Nat.zero_add]
      exact ih (List.countP_eq_zero.mpr fun e2 he2 => by simpa using h e2.1 e2.2 he2)

theorem recordGet_eq_none_of_countP (m : List (Str × Nat)) (k : Str)
    (h : m.countP (fun e => decide (e.1 = k)) = 0) : recordGet m k = none := by
  induction m with
  | nil => rfl
  | cons e rest ih =>
    obtain ⟨k1, v1⟩ := e
    rw [List.countP_cons] at h
    simp only [recordGet]
    by_cases he : k1 = k
    · simp [he] at h
    · rw [if_neg he]
      simp [he] at h
      exact ih (List.countP_eq_zero.mpr fun e2 he2 => by simpa using h e2.1 e2.2 he2)

theorem addHits_get (l : List (Str × Nat)) (acc : List (Str × Nat)) (k : Str) :
    recordGet (addHits acc l) k
      = if l.countP (fun e => decide (e.1 = k)) = 0 then recordGet acc k
        else some ((recordGet acc k).getD 0 + keySum l k) := by
  induction l generalizing acc with
  | nil => simp [addHits, keySum]
  | cons e rest ih =>
    obtain ⟨k1, v1⟩ := e
    have hstep : addHits acc ((k1, v1) :: rest) = addHits (recordAdd acc k1 v1) rest := by
      simp [addHits]
    rw [hstep, ih]
    simp only [List.countP_cons, keySum_cons]
    by_cases h1 : k1 = k
    · subst h1
      rw [recordGet_recordAdd, if_pos rfl]
      by_cases h2 : rest.countP (fun e => decide (e.1 = k1)) = 0
      · rw [keySum_eq_zero_of_countP rest k1 h2]
        simp [h2]
      · simp [h2, Nat.add_assoc]
    · have h3 : ¬k = k1 := fun hh => h1 hh.symm
      rw [recordGet_recordAdd, if_neg h3]
      have hd : (decide (k1 = k)) = false := by simp [h1]
      rw [hd]
      simp [h1]

theorem allHitsMap_foldl_get (rs : List CategoryResult) (acc : List (Str × Nat)) (k : Str) :
    recordGet (rs.foldl (fun a r => addHits a r.hits) acc) k
      = if ∀ r ∈ rs, r.hits.countP (fun e => decide (e.1 = k)) = 0 then recordGet acc k
        else some ((recordGet acc k).getD 0 + (rs.map (fun r => keySum r.hits k)).sum) := by
  induction rs generalizing acc with
  | nil => simp
  | cons r rest ih =>
    rw [List.foldl_cons, ih, addHits_get]
    simp only [List.forall_mem_cons, List.map_cons, List.sum_cons]
    by_cases hr : r.hits.countP (fun e => decide (e.1 = k)) = 0
    · by_cases hrest : ∀ r2 ∈ rest, r2.hits.countP (fun e => decide (e.1 = k)) = 0
      · rw [if_pos hrest, if_pos hr, if_pos ⟨hr, hrest⟩]
      · rw [if_neg hrest, if_pos hr, if_neg (fun hc => hrest hc.2),
          keySum_eq_zero_of_countP _ _ hr]
        simp
    · by_cases hrest : ∀ r2 ∈ rest, r2.hits.countP (fun e => decide (e.1 = k)) = 0
      · have hsum : (rest.map (fun r => keySum r.hits k)).sum = 0 := by
          rw [List.sum_eq_zero]
          intro x hx
          rcases List.mem_map.mp hx with ⟨r2, hr2, hx2⟩
          rw [← hx2, keySum_eq_zero_of_countP _ _ (hrest r2 hr2)]
        rw [if_pos hrest, if_neg hr, if_neg (fun hc => hr hc.1), hsum]
        simp
      · rw [if_neg hrest, if_neg hr, if_neg (fun hc => hr hc.1)]
        simp [Nat.add_assoc]

theorem recordGet_mem {m : List (Str × Nat)} {k : Str} {v : Nat}
    (h : recordGet m k = some v) : (k, v) ∈ m := by
  induction m with
  | nil => simp [recordGet] at h
  | cons e rest ih =>
    obtain ⟨k1, v1⟩ := e
    simp only [recordGet] at h
    by_cases h1 : k1 = k
    · rw [if_pos h1] at h
      subst h1
      injection h with h
      subst h
      exact List.mem_cons_self _ _
    · rw [if_neg h1] at h
      exact List.mem_cons_of_mem _ (ih h)

theorem recKeys_recordAdd (m : List (Str × Nat)) (k : Str) (v : Nat) :
    recKeys (recordAdd m k v)
      = if k ∈ recKeys m then recKeys m else recKeys m ++ [k] := by
  induction m with
  | nil => simp [recordAdd, recKeys]
  | cons e rest ih =>
    obtain ⟨k1, v1⟩ := e
    by_cases h1 : k1 = k
    · subst h1
      simp [recordAdd, recKeys]
    · simp only [recordAdd, if_neg h1, recKeys, List.map_cons] at *
      rw [ih]
      by_cases h2 : k ∈ List.map Prod.fst rest
      · simp [h2]
      · rw [if_neg h2, if_neg (show ¬k ∈ k1 :: List.map Prod.fst rest by
          simp only [List.mem_cons, not_or]
          exact ⟨fun hh => h1 hh.symm, h2⟩)]
        simp

theorem nodup_recKeys_recordAdd {m : List (Str × Nat)} (k : Str) (v : Nat)
    (h : (recKeys m).Nodup) : (recKeys (recordAdd m k v)).Nodup := by
  rw [recKeys_recordAdd]
  by_cases h2 : k ∈ recKeys m
  · rwa [if_pos h2]
  · rw [if_neg h2]
    simp [List.nodup_append, h, h2]

theorem nodup_recKeys_addHits {acc : List (Str × Nat)} (l : List (Str × Nat))
    (h : (recKeys acc).Nodup) : (recKeys (addHits acc l)).Nodup := by
  induction l generalizing acc with
  | nil => simpa [addHits]
  | cons e rest ih =>
    have hstep : addHits acc (e :: rest) = addHits (recordAdd acc e.1 e.2) rest := by
      simp [addHits]
    rw [hstep]
    exact ih (nodup_recKeys_recordAdd e.1 e.2 h)

theorem nodup_recKeys_allHitsMap (rs : List CategoryResult) :
    (recKeys (allHitsMap rs)).Nodup := by
  suffices h : ∀ acc : List (Str × Nat), (recKeys acc).Nodup →
      (recKeys (rs.foldl (fun a r => addHits a r.hits) acc)).Nodup by
    exact h [] (by simp [recKeys])
  induction rs with
  | nil => intro acc hacc; simpa
  | cons r rest ih =>
    intro acc hacc
    rw [List.foldl_cons]
    exact ih _ (nodup_recKeys_addHits r.hits hacc)

theorem countP_key_of_nodup {m : List (Str × Nat)} (k : Str)
    (h : (recKeys m).Nodup) :
    m.countP (fun e => decide (e.1 = k))
      = if (recordGet m k).isSome then 1 else 0 := by
  induction m with
  | nil => simp [recordGet]
  | cons e rest ih =>
    obtain ⟨k1, v1⟩ := e
    simp only [recKeys, List.map_cons, List.nodup_cons] at h
    rw [List.countP_cons]
    by_cases h1 : k1 = k
    · subst h1
      have hz : rest.countP (fun e => decide (e.1 = k1)) = 0 := by
        rw [List.countP_eq_zero]
        intro e2 he2
        simp only [decide_eq_true_eq]
        intro hk
        exact h.1 (hk ▸ List.mem_map_of_mem Prod.fst he2)
      simp [recordGet, hz]
    · simp only [recordGet, if_neg h1]
      rw [ih (by simpa [recKeys] using h.2)]
      have hd : (decide ((k1, v1).1 = k)) = false := by simp [h1]
      rw [hd]
      simp

theorem keySum_eq_getD {m : List (Str × Nat)} (k : Str)
    (h : (recKeys m).Nodup) : keySum m k = (recordGet m k).getD 0 := by
  induction m with
  | nil => simp [keySum, recordGet]
  | cons e rest ih =>
    obtain ⟨k1, v1⟩ := e
    simp only [recKeys, List.map_cons, List.nodup_cons] at h
    rw [keySum_cons]
    simp only [recordGet]
    by_cases h1 : k1 = k
    · subst h1
      rw [if_pos rfl, if_pos rfl]
      have hz : keySum rest k1 = 0 := by
        apply keySum_eq_zero_of_countP
        rw [List.countP_eq_zero]
        intro e2 he2
        simp only [decide_eq_true_eq]
        intro hk
        exact h.1 (hk ▸ List.mem_map_of_mem Prod.fst he2)
      rw [hz]
      simp
    · rw [if_neg h1, if_neg h1, ih (by simpa [recKeys] using h.2)]
      simp

theorem recordGet_isSome_of_countP {m : List (Str × Nat)} {k : Str}
    (h : m.countP (fun e => decide (e.1 = k)) ≠ 0) :
    ∃ v, recordGet m k = some v := by
  induction m with
  | nil => simp [List.countP_nil] at h
  | cons e rest ih =>
    obtain ⟨k1, v1⟩ := e
    simp only [recordGet]
    by_cases h1 : k1 = k
    · exact ⟨v1, if_pos h1⟩
    · rw [if_neg h1]
      apply ih
      rw [List.countP_cons] at h
      have hd : (decide ((k1, v1).1 = k)) = false := by simp [h1]
      rw [hd] at h
      simpa using h

theorem recKeys_recordSet {V : Type} (m : List (Str × V)) (k : Str) (v : V) :
    recKeys (recordSet m k v)
      = if k ∈ recKeys m then recKeys m else recKeys m ++ [k] := by
  induction m with
  | nil =>
    simp only [recordSet, recKeys, List.map_nil, List.map_cons,
      List.not_mem_nil, if_false, List.nil_append]
  | cons e rest ih =>
    obtain ⟨k1, v1⟩ := e
    by_cases h1 : k1 = k
    · subst h1
      have hset : recordSet ((k1, v1) :: rest) k1 v = (k1, v) :: rest := by
        unfold recordSet
        rw [if_pos rfl]
      rw [hset, if_pos (show k1 ∈ recKeys ((k1, v1) :: rest) from by
        simp only [recKeys, List.map_cons]
        exact List.mem_cons_self _ _)]
      simp only [recKeys, List.map_cons]
    · simp only [recordSet, if_neg h1, recKeys, List.map_cons] at *
      rw [ih]
      by_cases h2 : k ∈ List.map Prod.fst rest
      · simp [h2]
      · rw [if_neg h2, if_neg (show ¬k ∈ k1 :: List.map Prod.fst rest by
          simp only [List.mem_cons, not_or]
          exact ⟨fun hh => h1 hh.symm, h2⟩)]
        simp

theorem nodup_recKeys_scoreCategory (corpus : Str) (kws : List Str) :
    (recKeys (scoreCategory corpus kws).2).Nodup := by
  suffices h : ∀ (ks : List Str) (acc : Nat × List (Str × Nat)),
      (recKeys acc.2).Nodup →
      (recKeys (ks.foldl (scoreStep corpus) acc).2).Nodup by
    exact h kws (0, []) (by simp [recKeys])
  intro ks
  induction ks with
  | nil => intro acc hacc; simpa
  | cons kw rest ih =>
    intro acc hacc
    rw [List.foldl_cons]
    refine ih _ ?_
    by_cases h : 0 < countMatches kw corpus
    · have hstep : scoreStep corpus acc kw
          = (acc.1 + countMatches kw corpus, recordSet acc.2 kw (countMatches kw corpus)) := by
        simp only [scoreStep]; rw [if_pos h]
      rw [hstep]
      show (recKeys (recordSet acc.2 kw (countMatches kw corpus))).Nodup
      rw [recKeys_recordSet]
      by_cases h2 : kw ∈ recKeys acc.2
      · rwa [if_pos h2]
      · rw [if_neg h2]
        simp [List.nodup_append, hacc, h2]
    · have hstep : scoreStep corpus acc kw = acc := by
        simp only [scoreStep]; rw [if_neg h]
      rwa [hstep]

/-! ### The stable descending sort (C2, C8) -/

theorem insertDescBy_perm {α : Type} (key : α → Nat) (a : α) (l : List α) :
    (insertDescBy key a l).Perm (a :: l) := by
  induction l with
  | nil => simp [insertDescBy]
  | cons b rest ih =>
    simp only [insertDescBy]
    by_cases h : key a ≤ key b
    · rw [if_pos h]
      exact (ih.cons b).trans (List.Perm.swap a b rest)
    · rw [if_neg h]

theorem sortDescBy_perm {α : Type} (key : α → Nat) (l : List α) :
    (sortDescBy key l).Perm l := by
  suffices h : ∀ acc : List α,
      (l.foldl (fun acc a => insertDescBy key a acc) acc).Perm (acc ++ l) by
    simpa [sortDescBy] using h []
  induction l with
  | nil => intro acc; simp
  | cons a rest ih =>
    intro acc
    rw [List.foldl_cons]
    have h1 := ih (insertDescBy key a acc)
    have h2 : (insertDescBy key a acc ++ rest).Perm ((a :: acc) ++ rest) :=
      (insertDescBy_perm key a acc).append_right rest
    have h3 : ((a :: acc) ++ rest).Perm (acc ++ a :: rest) := by
      simp only [List.cons_append]
      exact List.perm_middle.symm
    exact h1.trans (h2.trans h3) 

theorem mem_scoreTable_hits {corpus : Str} {table : ScanTable} {r : CategoryResult}
    (hr : r ∈ scoreTable corpus table) :
    (recKeys r.hits).Nodup ∧ ∀ e ∈ r.hits, 1 ≤ e.2 := by
  rw [scoreTable_eq_filter_map] at hr
  rw [List.mem_filter] at hr
  rcases List.mem_map.mp hr.1 with ⟨e, he, hre⟩
  subst hre
  exact ⟨nodup_recKeys_scoreCategory corpus e.2, scoreCategory_hits_pos corpus e.2⟩

/-- C2: for every corpus, every pair of tables and every keyword string,
the aggregate hit list contains exactly one entry for the keyword when
its summed count over all returned categories is positive (and none
otherwise), and that entry carries the sum, over every category of
either table in which the keyword has a positive count, of that count —
so a keyword shared by two categories yields a single merged entry. -/
theorem C2_aggregate_hits (corpus : Str) (gt tt : ScanTable) (kw : Str) :
    ((analyze corpus gt tt).allHits.countP (fun e => decide (e.1 = kw))
        = if 0 < ((scoreTable corpus gt ++ scoreTable corpus tt).map
              (fun r => (recordGet r.hits kw).getD 0)).sum then 1 else 0) ∧
      (0 < ((scoreTable corpus gt ++ scoreTable corpus tt).map
              (fun r => (recordGet r.hits kw).getD 0)).sum →
        (kw, ((scoreTable corpus gt ++ scoreTable corpus tt).map
              (fun r => (recordGet r.hits kw).getD 0)).sum)
          ∈ (analyze corpus gt tt).allHits) := by
  set rs := scoreTable corpus gt ++ scoreTable corpus tt with hrs
  have hmemr : ∀ r ∈ rs, (recKeys r.hits).Nodup ∧ ∀ e ∈ r.hits, 1 ≤ e.2 := by
    intro r hr
    rcases List.mem_append.mp hr with h | h
    · exact mem_scoreTable_hits h
    · exact mem_scoreTable_hits h
  have hAH : (analyze corpus gt tt).allHits
      = sortDescBy (fun e => e.2) (allHitsMap rs) := rfl
  have hmap : rs.map (fun r => keySum r.hits kw)
      = rs.map (fun r => (recordGet r.hits kw).getD 0) :=
    List.map_congr_left (fun r hr => keySum_eq_getD kw (hmemr r hr).1)
  have hcond : (∀ r ∈ rs, r.hits.countP (fun e => decide (e.1 = kw)) = 0)
      ↔ (rs.map (fun r => (recordGet r.hits kw).getD 0)).sum = 0 := by
    constructor
    · intro hall
      rw [List.sum_eq_zero]
      intro x hx
      rcases List.mem_map.mp hx with ⟨r, hr, hx2⟩
      rw [← hx2, recordGet_eq_none_of_countP _ _ (hall r hr)]
      rfl
    · intro hz r hr
      by_contra hne
      rcases recordGet_isSome_of_countP hne with ⟨v, hv⟩
      have hvpos : 1 ≤ v := (hmemr r hr).2 _ (recordGet_mem hv)
      have hle : (recordGet r.hits kw).getD 0
          ≤ (rs.map (fun r => (recordGet r.hits kw).getD 0)).sum := by
        apply List.single_le_sum (fun x _ => Nat.zero_le x)
        exact List.mem_map_of_mem _ hr
      rw [hv] at hle
      simp only [Option.getD_some] at hle
      omega
  have hget : recordGet (allHitsMap rs) kw
      = if (rs.map (fun r => (recordGet r.hits kw).getD 0)).sum = 0 then none
        else some ((rs.map (fun r => (recordGet r.hits kw).getD 0)).sum) := by
    show recordGet (rs.foldl (fun a r => addHits a r.hits) []) kw = _
    rw [allHitsMap_foldl_get]
    by_cases hall : ∀ r ∈ rs, r.hits.countP (fun e => decide (e.1 = kw)) = 0
    · rw [if_pos hall, if_pos (hcond.mp hall)]
      rfl
    · rw [if_neg hall, if_neg (fun hz => hall (hcond.mpr hz)), hmap]
      simp [recordGet]
  constructor
  · rw [hAH, (sortDescBy_perm (fun e => e.2) (allHitsMap rs)).countP_eq,
      countP_key_of_nodup kw (nodup_recKeys_allHitsMap rs), hget]
    by_cases hz : (rs.map (fun r => (recordGet r.hits kw).getD 0)).sum = 0
    · rw [if_pos hz]
      simp [hz]
    · rw [if_neg hz]
      simp [Nat.pos_of_ne_zero hz]
  · intro hpos
    have hsome : recordGet (allHitsMap rs) kw
        = some ((rs.map (fun r => (recordGet r.hits kw).getD 0)).sum) := by
      rw [hget, if_neg (by omega)]
    rw [hAH]
    exact ((sortDescBy_perm _ _).mem_iff).mpr (recordGet_mem hsome)

/-- C2, witness: on corpus `a magic b`, keyword `magic` appears in one
genre category and one tag category; the aggregate summed-count is
positive and the merged entry is in the aggregate list. -/
theorem C2_aggregate_hits_witness :
    0 < ((scoreTable "a magic b".toList [("Fantasy".toList, ["magic".toList])]
          ++ scoreTable "a magic b".toList [("Magic System".toList, ["magic".toList])]).map
            (fun r => (recordGet r.hits "magic".toList).getD 0)).sum ∧
      ("magic".toList,
        ((scoreTable "a magic b".toList [("Fantasy".toList, ["magic".toList])]
          ++ scoreTable "a magic b".toList [("Magic System".toList, ["magic".toList])]).map
            (fun r => (recordGet r.hits "magic".toList).getD 0)).sum)
        ∈ (analyze "a magic b".toList [("Fantasy".toList, ["magic".toList])]
            [("Magic System".toList, ["magic".toList])]).allHits :=
  ⟨by decide,
    (C2_aggregate_hits "a magic b".toList [("Fantasy".toList, ["magic".toList])]
      [("Magic System".toList, ["magic".toList])] "magic".toList).2 (by decide)⟩

theorem insertDescBy_sorted {α : Type} (key : α → Nat) (a : α) {l : List α}
    (hl : l.Pairwise (fun x y => key y ≤ key x)) :
    (insertDescBy key a l).Pairwise (fun x y => key y ≤ key x) := by
  induction l with
  | nil => simp [insertDescBy]
  | cons b rest ih =>
    rw [List.pairwise_cons] at hl
    simp only [insertDescBy]
    by_cases h : key a ≤ key b
    · rw [if_pos h, List.pairwise_cons]
      constructor
      · intro x hx
        rcases List.mem_cons.mp (((insertDescBy_perm key a rest).mem_iff).mp hx)
          with hx2 | hx2
        · rw [hx2]; exact h
        · exact hl.1 x hx2
      · exact ih hl.2
    · rw [if_neg h, List.pairwise_cons]
      constructor
      · intro x hx
        rcases List.mem_cons.mp hx with hx2 | hx2
        · rw [hx2]; omega
        · have := hl.1 x hx2
          omega
      · exact List.pairwise_cons.mpr hl

theorem sortDescBy_sorted {α : Type} (key : α → Nat) (l : List α) :
    (sortDescBy key l).Pairwise (fun x y => key y ≤ key x) := by
  suffices h : ∀ acc : List α, acc.Pairwise (fun x y => key y ≤ key x) →
      (l.foldl (fun acc a => insertDescBy key a acc) acc).Pairwise
        (fun x y => key y ≤ key x) by
    exact h [] (by simp)
  induction l with
  | nil => intro acc hacc; simpa
  | cons a rest ih =>
    intro acc hacc
    rw [List.foldl_cons]
    exact ih _ (insertDescBy_sorted key a hacc)

theorem filter_insertDescBy {α : Type} (key : α → Nat) (a : α) (s : Nat)
    {l : List α} (hl : l.Pairwise (fun x y => key y ≤ key x)) :
    (insertDescBy key a l).filter (fun x => decide (key x = s))
      = if key a = s then l.filter (fun x => decide (key x = s)) ++ [a]
        else l.filter (fun x => decide (key x = s)) := by
  induction l with
  | nil =>
    simp only [insertDescBy, List.filter_nil]
    by_cases ha : key a = s
    · rw [if_pos ha]; simp [ha]
    · rw [if_neg ha]; simp [ha]
  | cons b rest ih =>
    rw [List.pairwise_cons] at hl
    simp only [insertDescBy]
    by_cases h : key a ≤ key b
    · rw [if_pos h, List.filter_cons, List.filter_cons, ih hl.2]
      by_cases ha : key a = s <;> by_cases hb : key b = s <;> simp [ha, hb]
    · rw [if_neg h, List.filter_cons]
      by_cases ha : key a = s
      · have hnil : (b :: rest).filter (fun x => decide (key x = s)) = [] := by
          rw [List.filter_eq_nil_iff]
          intro x hx
          simp only [decide_eq_true_eq]
          rcases List.mem_cons.mp hx with hx2 | hx2
          · subst hx2; omega
          · have := hl.1 x hx2; omega
        rw [if_pos ha, hnil]
        simp [ha]
      · rw [if_neg ha]
        simp [ha]

theorem filter_sortDescBy {α : Type} (key : α → Nat) (l : List α) (s : Nat) :
    (sortDescBy key l).filter (fun x => decide (key x = s))
      = l.filter (fun x => decide (key x = s)) := by
  suffices h : ∀ acc : List α, acc.Pairwise (fun x y => key y ≤ key x) →
      (l.foldl (fun acc a => insertDescBy key a acc) acc).filter
          (fun x => decide (key x = s))
        = acc.filter (fun x => decide (key x = s))
          ++ l.filter (fun x => decide (key x = s)) by
    simpa [sortDescBy] using h [] (by simp)
  induction l with
  | nil => intro acc hacc; simp
  | cons a rest ih =>
    intro acc hacc
    rw [List.foldl_cons, ih _ (insertDescBy_sorted key a hacc),
      filter_insertDescBy key a s hacc, List.filter_cons]
    by_cases ha : key a = s
    · rw [if_pos ha]
      simp [ha]
    · rw [if_neg ha]
      simp [ha]

/-- C8: in the returned `AnalysisResult` the genre and tag sequences are
sorted by descending score and the aggregate sequence by descending
count, and all three sorts are stable: for every key value, the
sub-sequence of elements with that exact score (resp. count) is
unchanged from the pre-sort sequence — which for categories is the
input-table order (the unsorted result list is the table's positive
entries in table order) and for aggregates is first-encountered
order. -/
theorem C8_sorting_stable (corpus : Str) (gt tt : ScanTable) :
    ((analyze corpus gt tt).genres.Pairwise (fun a b => b.score ≤ a.score) ∧
      (analyze corpus gt tt).tags.Pairwise (fun a b => b.score ≤ a.score) ∧
      (analyze corpus gt tt).allHits.Pairwise (fun a b => b.2 ≤ a.2)) ∧
    (∀ s : Nat,
      (analyze corpus gt tt).genres.filter (fun r => decide (r.score = s))
          = (scoreTable corpus gt).filter (fun r => decide (r.score = s)) ∧
        (analyze corpus gt tt).tags.filter (fun r => decide (r.score = s))
          = (scoreTable corpus tt).filter (fun r => decide (r.score = s)) ∧
        (analyze corpus gt tt).allHits.filter (fun e => decide (e.2 = s))
          = (allHitsMap (scoreTable corpus gt ++ scoreTable corpus tt)).filter
              (fun e => decide (e.2 = s))) ∧
    scoreTable corpus gt
        = (gt.map (mkCategoryResult corpus)).filter (fun r => decide (0 < r.score)) ∧
      scoreTable corpus tt
        = (tt.map (mkCategoryResult corpus)).filter (fun r => decide (0 < r.score)) := by
  refine ⟨⟨?_, ?_, ?_⟩, fun s => ⟨?_, ?_, ?_⟩, scoreTable_eq_filter_map corpus gt,
    scoreTable_eq_filter_map corpus tt⟩
  · exact sortDescBy_sorted (fun r => r.score) (scoreTable corpus gt)
  · exact sortDescBy_sorted (fun r => r.score) (scoreTable corpus tt)
  · exact sortDescBy_sorted (fun e => e.2)
      (allHitsMap (scoreTable corpus gt ++ scoreTable corpus tt))
  · exact filter_sortDescBy (fun r => r.score) (scoreTable corpus gt) s
  · exact filter_sortDescBy (fun r => r.score) (scoreTable corpus tt) s
  · exact filter_sortDescBy (fun e => e.2)
      (allHitsMap (scoreTable corpus gt ++ scoreTable corpus tt)) s

/-! ### Lemmas for the pipeline (C5, C6, C7, C10) -/

theorem extractLoop_ne_nec (zip : List (Str × Str)) (opfPath : Str)
    (items : List (Str × Str)) (strip : Str → Str) :
    ∀ (refs : List (Option Str)) (seen : List Str) (acc : Str),
      extractLoop zip opfPath items strip refs seen acc
        ≠ Except.error EpubError.noExtractableContent := by
  intro refs
  induction refs with
  | nil =>
    intro seen acc h
    simp [extractLoop] at h
  | cons ref rest ih =>
    intro seen acc h
    cases ref with
    | none =>
      simp only [extractLoop] at h
      exact ih _ _ h
    | some idref =>
      simp only [extractLoop] at h
      split at h
      · exact ih _ _ h
      · split at h
        · exact ih _ _ h
        · split at h
          · exact ih _ _ h
          · split at h
            · simp at h
            · split at h
              · exact ih _ _ h
              · split at h
                · exact ih _ _ h
                · exact ih _ _ h

theorem extractLoop_empty_items (zip : List (Str × Str)) (opfPath : Str)
    (strip : Str → Str) :
    ∀ (refs : List (Option Str)) (seen : List Str) (acc : Str),
      extractLoop zip opfPath [] strip refs seen acc = Except.ok acc := by
  intro refs
  induction refs with
  | nil => intro seen acc; rfl
  | cons ref rest ih =>
    intro seen acc
    cases ref with
    | none => simp only [extractLoop]; exact ih _ _
    | some idref =>
      simp only [extractLoop, recordGet]
      split
      · exact ih _ _
      · exact ih _ _

theorem collectManifest_all_false {items : List ManifestItemDecl}
    (h : ∀ it ∈ items, itemCollected it = false) : collectManifest items = [] := by
  suffices hh : ∀ (l : List ManifestItemDecl) (acc : List (Str × Str)),
      (∀ it ∈ l, itemCollected it = false) →
      (l.foldl
        (fun acc it =>
          if itemCollected it then recordSet acc (it.id.getD []) (it.href.getD [])
          else acc) acc) = acc by
    exact hh items [] h
  intro l
  induction l with
  | nil => intro acc _; rfl
  | cons it rest ih =>
    intro acc hall
    rw [List.foldl_cons]
    have : itemCollected it = false := hall it (List.mem_cons_self _ _)
    simp only [this, Bool.false_eq_true, if_false]
    exact ih acc (fun it2 h2 => hall it2 (List.mem_cons_of_mem _ h2))

theorem extractText_empty_items (zip : List (Str × Str)) (opfPath : Str)
    (strip : Str → Str) (refs : List (Option Str)) :
    extractText zip opfPath [] strip refs
      = Except.error EpubError.noExtractableContent := by
  unfold extractText
  rw [extractLoop_empty_items zip opfPath strip refs [] []]
  rfl

/-- C7: the extraction stage fails with `NoExtractableContent` iff the
spine loop completes over the whole reading order and the concatenated
corpus is empty or whitespace-only; and an analysis run over a
structurally valid package (container present, rootfile path declared,
OPF present) whose manifest has zero html-typed items fails with
`NoExtractableContent` and no other error. -/
theorem C7_no_extractable_content (zip : List (Str × Str)) (opfPath : Str)
    (items : List (Str × Str)) (strip : Str → Str) (refs : List (Option Str))
    (parseContainer : Str → ContainerView) (parseOpf : Str → OpfView)
    (genreTable tagTable : ScanTable) (containerStr opfStr : Str)
    (rv : RootfileView) (p : Str) :
    (extractText zip opfPath items strip refs
        = Except.error EpubError.noExtractableContent
      ↔ ∃ c, extractLoop zip opfPath items strip refs [] [] = Except.ok c ∧
          isBlank c = true) ∧
    (recordGet zip "META-INF/container.xml".toList = some containerStr →
      (parseContainer containerStr).rootfile = some rv →
      rv.fullPath = some p → p.isEmpty = false →
      recordGet zip p = some opfStr →
      (∀ it ∈ (parseOpf opfStr).manifestItems, itemCollected it = false) →
      analyzeEpub zip parseContainer parseOpf strip genreTable tagTable
        = Except.error EpubError.noExtractableContent) := by
  constructor
  · unfold extractText
    cases hres : extractLoop zip opfPath items strip refs [] [] with
    | error e =>
      constructor
      · intro h
        have h2 : (Except.error e : Except EpubError Str)
            = Except.error EpubError.noExtractableContent := h
        have h3 := extractLoop_ne_nec zip opfPath items strip refs [] []
        rw [hres] at h3
        exact absurd h2 h3
      · rintro ⟨c, hc, -⟩
        cases hc
    | ok c =>
      have hred : (match (Except.ok c : Except EpubError Str) with
          | Except.error e => Except.error e
          | Except.ok c =>
            if isBlank c = true then Except.error EpubError.noExtractableContent
            else Except.ok c)
          = if isBlank c = true then Except.error EpubError.noExtractableContent
            else Except.ok c := rfl
      rw [hred]
      by_cases hb : isBlank c = true
      · rw [if_pos hb]
        exact ⟨fun _ => ⟨c, rfl, hb⟩, fun _ => rfl⟩
      · rw [if_neg hb]
        constructor
        · intro h
          exact Except.noConfusion h
        · rintro ⟨c2, hc2, hb2⟩
          injection hc2 with hc2
          rw [← hc2] at hb2
          exact absurd hb2 hb
  · intro h1 h2 h3 h4 h5 h6
    simp only [analyzeEpub, h1, h2, h3, h4, h5, Bool.false_eq_true, if_false,
      collectManifest_all_false h6, extractText_empty_items]

/-- C7, witness: a two-entry archive whose OPF parse declares no
manifest items (zero html-typed items) fails with
`NoExtractableContent`; the parser views are the constant views of the
two concrete documents. -/
theorem C7_witness :
    recordGet
        [("META-INF/container.xml".toList, "<container/>".toList),
         ("content.opf".toList, "<package/>".toList)]
        "META-INF/container.xml".toList = some "<container/>".toList ∧
      analyzeEpub
          [("META-INF/container.xml".toList, "<container/>".toList),
           ("content.opf".toList, "<package/>".toList)]
          (fun _ => ⟨some ⟨some "content.opf".toList⟩⟩)
          (fun _ => ⟨[], [some "ch1".toList]⟩)
          (fun s => s) [] []
        = Except.error EpubError.noExtractableContent :=
  ⟨by decide,
    (C7_no_extractable_content
        [("META-INF/container.xml".toList, "<container/>".toList),
         ("content.opf".toList, "<package/>".toList)]
        "content.opf".toList [] (fun s => s) []
        (fun _ => ⟨some ⟨some "content.opf".toList⟩⟩)
        (fun _ => ⟨[], [some "ch1".toList]⟩) [] []
        "<container/>".toList "<package/>".toList
        ⟨some "content.opf".toList⟩ "content.opf".toList).2
      (by decide) rfl rfl (by decide) (by decide)
      (fun it h => absurd h (List.not_mem_nil it))⟩

/-- C6: text extraction deduplicates by resolved archive path, not by
spine id.  First conjunct: whenever an idref's href resolves to a path
already seen, the loop step is a no-op (regardless of which id produced
the seen path).  Second conjunct: a reading order `[a, b, a]` whose two
ids resolve to distinct archive paths produces the same corpus as
`[a, b]`. -/
theorem C6_dedup_by_resolved_path (zip : List (Str × Str)) (opfPath : Str)
    (items : List (Str × Str)) (strip : Str → Str) :
    (∀ (idref href : Str) (path : Str) (rest : List (Option Str))
        (seen : List Str) (acc : Str),
      idref.isEmpty = false → recordGet items idref = some href →
      href.isEmpty = false → resolveChapterPath opfPath href = some path →
      path ∈ seen →
      extractLoop zip opfPath items strip (some idref :: rest) seen acc
        = extractLoop zip opfPath items strip rest seen acc) ∧
    (∀ (a b hrefa hrefb pa pb : Str),
      a.isEmpty = false → recordGet items a = some hrefa →
      hrefa.isEmpty = false → resolveChapterPath opfPath hrefa = some pa →
      b.isEmpty = false → recordGet items b = some hrefb →
      hrefb.isEmpty = false → resolveChapterPath opfPath hrefb = some pb →
      pa ≠ pb →
      extractLoop zip opfPath items strip [some a, some b, some a] [] []
        = extractLoop zip opfPath items strip [some a, some b] [] []) := by
  have hskip : ∀ (idref href : Str) (path : Str) (rest : List (Option Str))
      (seen : List Str) (acc : Str),
      idref.isEmpty = false → recordGet items idref = some href →
      href.isEmpty = false → resolveChapterPath opfPath href = some path →
      path ∈ seen →
      extractLoop zip opfPath items strip (some idref :: rest) seen acc
        = extractLoop zip opfPath items strip rest seen acc := by
    intro idref href path rest seen acc hi hh he hr hm
    simp only [extractLoop, hi, hh, he, hr, Bool.false_eq_true, if_false,
      if_pos hm]
  refine ⟨hskip, ?_⟩
  intro a b hrefa hrefb pa pb hai ha hae hra hbi hb hbe hrb hne
  have hnm : ¬pb ∈ [pa] := by
    simp only [List.mem_singleton]
    exact fun hh => hne hh.symm
  have step3 : ∀ acc : Str,
      extractLoop zip opfPath items strip [some a] [pb, pa] acc = Except.ok acc := by
    intro acc
    rw [hskip a hrefa pa [] [pb, pa] acc hai ha hae hra (by simp)]
    rfl
  cases hza : recordGet zip pa with
  | none =>
    have s1 : ∀ rest : List (Option Str),
        extractLoop zip opfPath items strip (some a :: rest) [] []
          = extractLoop zip opfPath items strip rest [pa] [] := by
      intro rest
      simp only [extractLoop, hai, ha, hae, hra, Bool.false_eq_true, if_false,
        List.not_mem_nil, hza]
    rw [s1 [some b, some a], s1 [some b]]
    cases hzb : recordGet zip pb with
    | none =>
      have s2 : ∀ rest : List (Option Str),
          extractLoop zip opfPath items strip (some b :: rest) [pa] []
            = extractLoop zip opfPath items strip rest [pb, pa] [] := by
        intro rest
        simp only [extractLoop, hbi, hb, hbe, hrb, Bool.false_eq_true, if_false,
          if_neg hnm, hzb]
      rw [s2 [some a], s2 [], step3]
      rfl
    | some cb =>
      have s2 : ∀ rest : List (Option Str),
          extractLoop zip opfPath items strip (some b :: rest) [pa] []
            = extractLoop zip opfPath items strip rest [pb, pa]
                ([] ++ strip cb ++ [' ']) := by
        intro rest
        simp only [extractLoop, hbi, hb, hbe, hrb, Bool.false_eq_true, if_false,
          if_neg hnm, hzb]
      rw [s2 [some a], s2 [], step3]
      rfl
  | some ca =>
    have s1 : ∀ rest : List (Option Str),
        extractLoop zip opfPath items strip (some a :: rest) [] []
          = extractLoop zip opfPath items strip rest [pa]
              ([] ++ strip ca ++ [' ']) := by
      intro rest
      simp only [extractLoop, hai, ha, hae, hra, Bool.false_eq_true, if_false,
        List.not_mem_nil, hza]
    rw [s1 [some b, some a], s1 [some b]]
    cases hzb : recordGet zip pb with
    | none =>
      have s2 : ∀ rest : List (Option Str),
          extractLoop zip opfPath items strip (some b :: rest) [pa]
              ([] ++ strip ca ++ [' '])
            = extractLoop zip opfPath items strip rest [pb, pa]
                ([] ++ strip ca ++ [' ']) := by
        intro rest
        simp only [extractLoop, hbi, hb, hbe, hrb, Bool.false_eq_true, if_false,
          if_neg hnm, hzb]
      rw [s2 [some a], s2 [], step3]
      rfl
    | some cb =>
      have s2 : ∀ rest : List (Option Str),
          extractLoop zip opfPath items strip (some b :: rest) [pa]
              ([] ++ strip ca ++ [' '])
            = extractLoop zip opfPath items strip rest [pb, pa]
                ([] ++ strip ca ++ [' '] ++ strip cb ++ [' ']) := by
        intro rest
        simp only [extractLoop, hbi, hb, hbe, hrb, Bool.false_eq_true, if_false,
          if_neg hnm, hzb]
      rw [s2 [some a], s2 [], step3]
      rfl

/-- C6, witness: two spine ids resolving to the distinct archive paths
`ch1.xhtml` and `ch2.xhtml`; the reading order `[a, b, a]` yields the
same corpus as `[a, b]`. -/
theorem C6_dedup_witness :
    resolveChapterPath "content.opf".toList "ch1.xhtml".toList
        = some "ch1.xhtml".toList ∧
      resolveChapterPath "content.opf".toList "ch2.xhtml".toList
        = some "ch2.xhtml".toList ∧
      extractLoop
          [("ch1.xhtml".toList, "one".toList), ("ch2.xhtml".toList, "two".toList)]
          "content.opf".toList
          [("a".toList, "ch1.xhtml".toList), ("b".toList, "ch2.xhtml".toList)]
          (fun s => s)
          [some "a".toList, some "b".toList, some "a".toList] [] []
        = extractLoop
            [("ch1.xhtml".toList, "one".toList), ("ch2.xhtml".toList, "two".toList)]
            "content.opf".toList
            [("a".toList, "ch1.xhtml".toList), ("b".toList, "ch2.xhtml".toList)]
            (fun s => s)
            [some "a".toList, some "b".toList] [] [] :=
  ⟨by decide, by decide,
    (C6_dedup_by_resolved_path
        [("ch1.xhtml".toList, "one".toList), ("ch2.xhtml".toList, "two".toList)]
        "content.opf".toList
        [("a".toList, "ch1.xhtml".toList), ("b".toList, "ch2.xhtml".toList)]
        (fun s => s)).2
      "a".toList "b".toList "ch1.xhtml".toList "ch2.xhtml".toList
      "ch1.xhtml".toList "ch2.xhtml".toList
      (by decide) (by decide) (by decide) (by decide)
      (by decide) (by decide) (by decide) (by decide) (by decide)⟩

/-- C5, counterexample.  There is no distinct `MalformedContainer`
outcome in the code: `DOMParser.parseFromString` does not throw on
malformed XML but yields an error document with no `rootfile` element,
so an archive whose `META-INF/container.xml` holds the malformed
document `<` (first run, parse view without a rootfile) fails with
exactly the same `'Could not find rootfile path in container.xml.'`
error as an archive whose container is well-formed but declares no
root file (second run) — the two scenarios are indistinguishable,
contradicting the claimed distinct `MalformedContainer` error. -/
theorem C5_counterexample :
    analyzeEpub [("META-INF/container.xml".toList, "<".toList)]
        (fun _ => ⟨none⟩) (fun _ => ⟨[], []⟩) (fun s => s) [] []
      = Except.error EpubError.missingRootfilePath ∧
    analyzeEpub [("META-INF/container.xml".toList,
          "<container></container>".toList)]
        (fun _ => ⟨none⟩) (fun _ => ⟨[], []⟩) (fun s => s) [] []
      = Except.error EpubError.missingRootfilePath := by
  constructor <;> rfl

/-- C5, amended: when `META-INF/container.xml` exists but its content
is not well-formed XML, the DOM parser produces an error document with
no `rootfile` element and the run fails with the same
`'Could not find rootfile path in container.xml.'` error
(`missingRootfilePath`) that is raised when the document is well-formed
but has no root-file declaration, has one without a `full-path`
attribute, or has an empty `full-path`; no distinct `MalformedContainer`
error exists in the code. -/
theorem C5_amended_same_error (zip : List (Str × Str))
    (parseContainer : Str → ContainerView) (parseOpf : Str → OpfView)
    (strip : Str → Str) (genreTable tagTable : ScanTable) (containerStr : Str)
    (h1 : recordGet zip "META-INF/container.xml".toList = some containerStr) :
    ((parseContainer containerStr).rootfile = none →
      analyzeEpub zip parseContainer parseOpf strip genreTable tagTable
        = Except.error EpubError.missingRootfilePath) ∧
    (∀ rv : RootfileView, (parseContainer containerStr).rootfile = some rv →
      rv.fullPath = none →
      analyzeEpub zip parseContainer parseOpf strip genreTable tagTable
        = Except.error EpubError.missingRootfilePath) ∧
    (∀ rv : RootfileView, (parseContainer containerStr).rootfile = some rv →
      rv.fullPath = some [] →
      analyzeEpub zip parseContainer parseOpf strip genreTable tagTable
        = Except.error EpubError.missingRootfilePath) := by
  refine ⟨?_, ?_, ?_⟩
  · intro h2
    simp only [analyzeEpub, h1, h2]
  · intro rv h2 h3
    simp only [analyzeEpub, h1, h2, h3]
  · intro rv h2 h3
    simp only [analyzeEpub, h1, h2, h3, List.isEmpty_nil, if_true]

/-- C5, witness: the amended theorem applied to a concrete archive
whose container parse has no rootfile element (the malformed-XML
case). -/
theorem C5_amended_witness :
    recordGet [("META-INF/container.xml".toList, "<".toList)]
        "META-INF/container.xml".toList = some "<".toList ∧
      analyzeEpub [("META-INF/container.xml".toList, "<".toList)]
          (fun _ => ⟨none⟩) (fun _ => ⟨[], []⟩) (fun s => s) [] []
        = Except.error EpubError.missingRootfilePath :=
  ⟨by decide,
    (C5_amended_same_error [("META-INF/container.xml".toList, "<".toList)]
        (fun _ => ⟨none⟩) (fun _ => ⟨[], []⟩) (fun s => s) [] [] "<".toList
        (by decide)).1 rfl⟩

/-- C10: a structurally valid archive (container and OPF present, one
collected html-typed manifest item) whose spine item's href `100%`
resolves to a path with a malformed percent-encoding sequence (a lone
`%`) makes the analysis run throw the `URIError` from
`decodeURIComponent` — an error outside the spec's documented taxonomy
— instead of silently skipping the entry as an unresolvable chapter
path. -/
theorem C10_percent_decoding_throws :
    analyzeEpub
        [("META-INF/container.xml".toList, "<container/>".toList),
         ("content.opf".toList, "<package/>".toList)]
        (fun _ => ⟨some ⟨some "content.opf".toList⟩⟩)
        (fun _ => ⟨[⟨some "ch1".toList, some "100%".toList,
            some "application/xhtml+xml".toList⟩],
          [some "ch1".toList]⟩)
        (fun s => s) [] []
      = Except.error EpubError.uriError ∧
    documentedError EpubError.uriError = false := by
  constructor
  · rfl
  · rfl
